import Mathlib

/-!
# mongo-hot-backup: collection parsing, storage keys and the database access layer

A shallow embedding of `app.go`, `storageService.go` and `mongoLib.go`.

Go strings are byte sequences.  A string is modelled as the list of its bytes, each
byte written as the character with that code, so that ASCII text stands for itself.
The functions below only compare bytes with the ASCII separators `,`, `/` and `.` and
copy them, hence nothing depends on which characters stand for the other bytes.

Calls into the driver, the storage backends and the logger are recorded as values
(`MongoCall`, `StorageCall`, `CloseCall`); what such a call returns is an argument of
the function that makes it.
-/

namespace MongoHotBackup

/-- A Go `string`. -/
abbrev GoString := List Char

/-! ## Library functions used by the program -/

/-- Go `strings.Split(s, sep)` for a one-byte separator: the substrings between the
occurrences of `sep`; one more entry than there are separators, so never empty. -/
def strings_Split : GoString → Char → List GoString
  | [], _ => [[]]
  | c :: cs, sep =>
    if c = sep then [] :: strings_Split cs sep
    else ((c :: (strings_Split cs sep).headD []) :: (strings_Split cs sep).tail)

/-- Go `strings.Join(elems, sep)`. -/
def strings_Join : List GoString → GoString → GoString
  | [], _ => []
  | [a], _ => a
  | a :: b :: rest, sep => a ++ sep ++ strings_Join (b :: rest) sep

/-- Go `strings.Count(s, sep)` for a one-byte separator. -/
def strings_Count (s : GoString) (sep : Char) : Nat := s.count sep

/-! ## app.go -/

/-- Modelled from the spec: the declaration of `dbColl` is not among the sources; the
composite literal `dbColl{c[0], c[1]}` and the spec's CollectionRef give it two string
fields, database first. -/
structure dbColl where
  database : GoString
  collection : GoString
  deriving DecidableEq, Repr

/-- A Go `error` value produced by `fmt.Errorf`: its message. -/
structure GoError where
  msg : GoString
  deriving DecidableEq, Repr

/-- Go `append(cn, x)` on a slice that may be nil (`none`). -/
def sliceAppend {α : Type} (cn : Option (List α)) (x : α) : Option (List α) :=
  match cn with
  | none => some [x]
  | some l => some (l ++ [x])

/-- The message of `fmt.Errorf("failed to parse connections string: %s", colls)`. -/
def parseErrorf (colls : GoString) : GoError :=
  ⟨"failed to parse connections string: ".toList ++ colls⟩

/-- The `for _, coll := range ...` loop of `parseCollections`, with the slice `cn`
built so far; the result is the pair `([]dbColl, error)` the function returns. -/
def parseCollectionsLoop (colls : GoString) :
    List GoString → Option (List dbColl) → Option (List dbColl) × Option GoError
  | [], cn => (cn, none)
  | coll :: rest, cn =>
    let c := strings_Split coll '/'
    if c.length ≠ 2 then (none, some (parseErrorf colls))
    else parseCollectionsLoop colls rest (sliceAppend cn ⟨c.getD 0 [], c.getD 1 []⟩)

/-- Embeds `parseCollections(colls string) ([]dbColl, error)`; a nil slice is `none`. -/
def parseCollections (colls : GoString) : Option (List dbColl) × Option GoError :=
  parseCollectionsLoop colls (strings_Split colls ',') none

/-- A pair rendered as `database/collection`. -/
def renderPair (p : dbColl) : GoString := p.database ++ '/' :: p.collection

/-! ## Library functions used by storageService.go

`path/filepath` on a Unix system: the separator is `/` and there are no volume names.
`Clean` is modelled on its scanning loop.  The output buffer `lazybuf` is kept as the
bytes written so far, the last one first, so that `out.w` is the length of the list,
`out.append(c)` puts `c` in front and `out.w--` drops the first entry. -/

/-- The variables the scanning loop of `filepath.Clean` changes: the bytes written to
the output buffer `out` (last written first) and the index `dotdot`. -/
structure CleanVars where
  out : List Char
  dotdot : Nat
  deriving DecidableEq, Repr

/-- The inner loop of the `..` case of `filepath.Clean`, entered after an `out.w--`
that removed the byte `b`: `for out.w > dotdot && !os.IsPathSeparator(out.index(out.w))`
removes bytes until the byte removed last is a separator or `out.w` is `dotdot`. -/
def cleanBacktrack (dotdot : Nat) : List Char → List Char
  | [] => []
  | b :: rest => if rest.length > dotdot ∧ b ≠ '/' then cleanBacktrack dotdot rest else rest

/-- The loop `for r < n` of `filepath.Clean` on the part `path[r:]` still to be read;
every round reads at least one byte, and `fuel` bounds the number of rounds. -/
def cleanLoop (rooted : Bool) : Nat → GoString → CleanVars → CleanVars
  | 0, _, v => v
  | fuel + 1, path, v =>
    match path with
    | [] => v
    | c :: rest =>
      if c = '/' then
        -- empty path element
        cleanLoop rooted fuel rest v
      else if c = '.' ∧ (rest = [] ∨ rest.head? = some '/') then
        -- . element
        cleanLoop rooted fuel rest v
      else if c = '.' ∧ rest.head? = some '.'
          ∧ (rest.tail = [] ∨ rest.tail.head? = some '/') then
        -- .. element: remove to last separator
        if v.out.length > v.dotdot then
          cleanLoop rooted fuel rest.tail ⟨cleanBacktrack v.dotdot v.out, v.dotdot⟩
        else if rooted = false then
          let out := '.' :: '.' :: (if v.out.length > 0 then '/' :: v.out else v.out)
          cleanLoop rooted fuel rest.tail ⟨out, out.length⟩
        else cleanLoop rooted fuel rest.tail v
      else
        -- real path element: add slash if needed, copy element
        let out :=
          if (rooted = true ∧ v.out.length ≠ 1) ∨ (rooted = false ∧ v.out.length ≠ 0) then
            '/' :: v.out
          else v.out
        cleanLoop rooted fuel (path.dropWhile (fun b => decide (b ≠ '/')))
          ⟨(path.takeWhile (fun b => decide (b ≠ '/'))).reverse ++ out, v.dotdot⟩

/-- Go `filepath.Clean(path)`: the empty path gives `.`; a rooted path starts the
buffer with the separator and reads from the second byte; an empty buffer at the end
gives `.`. -/
def filepath_Clean (path : GoString) : GoString :=
  match path with
  | [] => ['.']
  | c :: rest =>
    let rooted := decide (c = '/')
    let v :=
      if rooted then cleanLoop rooted path.length rest ⟨['/'], 1⟩
      else cleanLoop rooted path.length path ⟨[], 0⟩
    if v.out.length = 0 then ['.'] else v.out.reverse

/-- Go `filepath.Join(elem...)`: the elements from the first non-empty one on, joined
with the separator and cleaned; the empty string when every element is empty. -/
def filepath_Join (elem : List GoString) : GoString :=
  match elem.dropWhile (fun e => decide (e = [])) with
  | [] => []
  | e :: es => filepath_Clean (strings_Join (e :: es) ['/'])

/-! ## storageService.go -/

/-- Embeds `const extension = ".bson.snappy"`. -/
def extension : GoString := ".bson.snappy".toList

/-- The fields of `s3StorageService`; the `*s3gof3r.S3` client is the domain and the
key pair it was built from. -/
structure s3StorageService where
  s3bucket : GoString
  s3dir : GoString
  s3domain : GoString
  accessKey : GoString
  secretKey : GoString
  deriving DecidableEq, Repr

/-- Embeds `newS3StorageService(s3bucket, s3dir, s3domain, accessKey, secretKey)`. -/
def newS3StorageService (s3bucket s3dir s3domain accessKey secretKey : GoString) :
    s3StorageService :=
  ⟨s3bucket, s3dir, s3domain, accessKey, secretKey⟩

/-- The fields of `fsStorageService`. -/
structure fsStorageService where
  fsdir : GoString
  deriving DecidableEq, Repr

/-- Embeds `newFSStorageService(fsdir)`. -/
def newFSStorageService (fsdir : GoString) : fsStorageService := ⟨fsdir⟩

/-- What a stream opener does to the outside world. -/
inductive StorageCall where
  | logInfo (msg : GoString)
  | PutWriter (bucket path : GoString) (header : List (GoString × List GoString))
  | GetReader (bucket path : GoString)
  | MkdirAll (path : GoString)
  | Create (path : GoString)
  | Open (path : GoString)
  deriving DecidableEq, Repr

/-- The local variable `path` of `s3StorageService.Writer`. -/
def s3StorageService.writerPath (s : s3StorageService) (date database collection : GoString) :
    GoString :=
  filepath_Join [s.s3dir, date, database, collection ++ extension]

/-- The local variable `path` of `s3StorageService.Reader`. -/
def s3StorageService.readerPath (s : s3StorageService) (date database collection : GoString) :
    GoString :=
  filepath_Join [s.s3dir, date, database, collection ++ extension]

/-- The local variable `dirPath` of `fsStorageService.Writer`. -/
def fsStorageService.writerDirPath (s : fsStorageService) (date database : GoString) :
    GoString :=
  filepath_Join [s.fsdir, date, database]

/-- The local variable `path` of `fsStorageService.Writer`. -/
def fsStorageService.writerPath (s : fsStorageService) (date database collection : GoString) :
    GoString :=
  filepath_Join [s.writerDirPath date database, collection ++ extension]

/-- The local variable `path` of `fsStorageService.Reader`. -/
def fsStorageService.readerPath (s : fsStorageService) (date database collection : GoString) :
    GoString :=
  filepath_Join [s.fsdir, date, database, collection ++ extension]

/-- The message of `log.Infof("saving to path=%s bucket=%s", path, s.s3bucket)`. -/
def s3SavingMsg (path bucket : GoString) : GoString :=
  "saving to path=".toList ++ path ++ " bucket=".toList ++ bucket

/-- The message of `log.Infof("saving to path=%s", path)`. -/
def fsSavingMsg (path : GoString) : GoString := "saving to path=".toList ++ path

/-- Embeds `s3StorageService.Writer`: `putErr` is the error of `PutWriter`.  The result is
the calls made, the key of the opened stream (`none` for a nil stream) and the error. -/
def s3StorageService.Writer (s : s3StorageService) (date database collection : GoString)
    (putErr : Option GoError) : List StorageCall × Option GoString × Option GoError :=
  let path := s.writerPath date database collection
  let calls := [StorageCall.logInfo (s3SavingMsg path s.s3bucket),
    StorageCall.PutWriter s.s3bucket path
      [("x-amz-server-side-encryption".toList, ["AES256".toList])]]
  match putErr with
  | some err => (calls, none, some err)
  | none => (calls, some path, none)

/-- Embeds `s3StorageService.Reader`: `getErr` is the error of `GetReader`. -/
def s3StorageService.Reader (s : s3StorageService) (date database collection : GoString)
    (getErr : Option GoError) : List StorageCall × Option GoString × Option GoError :=
  let path := s.readerPath date database collection
  match getErr with
  | some err => ([StorageCall.GetReader s.s3bucket path], none, some err)
  | none => ([StorageCall.GetReader s.s3bucket path], some path, none)

/-- Embeds `fsStorageService.Writer`: `mkdirErr` and `createErr` are the errors of
`os.MkdirAll` and `os.Create`. -/
def fsStorageService.Writer (s : fsStorageService) (date database collection : GoString)
    (mkdirErr createErr : Option GoError) :
    List StorageCall × Option GoString × Option GoError :=
  let dirPath := s.writerDirPath date database
  match mkdirErr with
  | some err => ([StorageCall.MkdirAll dirPath], none, some err)
  | none =>
    let path := s.writerPath date database collection
    let calls := [StorageCall.MkdirAll dirPath, StorageCall.logInfo (fsSavingMsg path),
      StorageCall.Create path]
    match createErr with
    | some err => (calls, none, some err)
    | none => (calls, some path, none)

/-- Embeds `fsStorageService.Reader`: `openErr` is the error of `os.Open`. -/
def fsStorageService.Reader (s : fsStorageService) (date database collection : GoString)
    (openErr : Option GoError) : List StorageCall × Option GoString × Option GoError :=
  let path := s.readerPath date database collection
  match openErr with
  | some err => ([StorageCall.Open path], none, some err)
  | none => ([StorageCall.Open path], some path, none)

/-- The literal layout `{baseDir}/{date}/{database}/{collection}.bson.snappy`. -/
def layoutKey (baseDir date database collection : GoString) : GoString :=
  baseDir ++ '/' :: (date ++ '/' :: (database ++ '/' :: (collection ++ extension)))

/-- The two objects a `snappyWriteCloser` holds, each with the error its `Close` will
return. -/
structure snappyWriteCloser where
  snappyWriter : Option GoError
  writeCloser : Option GoError
  deriving DecidableEq, Repr

/-- A call of `Close` on one of the two objects of a `snappyWriteCloser`. -/
inductive CloseCall where
  | snappyWriter
  | writeCloser
  deriving DecidableEq, Repr

/-- Embeds `snappyWriteCloser.Close`: the `Close` calls it makes, in order, and the error it
returns. -/
def snappyWriteCloser.Close (swc : snappyWriteCloser) : List CloseCall × Option GoError :=
  match swc.snappyWriter with
  | some err => ([CloseCall.snappyWriter], some err)
  | none => ([CloseCall.snappyWriter, CloseCall.writeCloser], swc.writeCloser)

/-! ## mongoLib.go -/

/-- A `context.Context`, as far as deadlines go: the instant (in nanoseconds) at which
it expires, if any. -/
structure Context where
  deadline : Option Int
  deriving DecidableEq, Repr

/-- Embeds `context.Background()`. -/
def context_Background : Context := ⟨none⟩

/-- Embeds `context.WithTimeout(parent, timeout)` called at the instant `now`: the deadline is
`now + timeout` unless the parent already expires earlier. -/
def context_WithTimeout (parent : Context) (now timeout : Int) : Context :=
  match parent.deadline with
  | some cur => if cur < now + timeout then parent else ⟨some (now + timeout)⟩
  | none => ⟨some (now + timeout)⟩

/-- A document as raw bytes. -/
abbrev Document := List (Fin 256)

/-- A filter argument of the driver: `nil` is `none`, `bson.D{}` is `some []`. -/
abbrev Filter := Option (List (GoString × Document))

/-- The write model built by `mongo.NewInsertOneModel().SetDocument(data)`. -/
inductive WriteModel where
  | InsertOne (document : Document)
  deriving DecidableEq, Repr

/-- A call the program makes on the driver, with the context and arguments it passes. -/
inductive MongoCall where
  | Connect (ctx : Context) (uri : GoString)
  | cancel
  | Disconnect (ctx : Context)
  | Find (ctx : Context) (database collection : GoString) (filter : Filter)
  | CursorClose (ctx : Context)
  | TryNext (ctx : Context)
  | DeleteMany (ctx : Context) (database collection : GoString) (filter : Filter)
  | BulkWrite (ctx : Context) (database collection : GoString) (models : List WriteModel)
  deriving DecidableEq, Repr

/-- The context a call was given, if it takes one. -/
def MongoCall.ctx? : MongoCall → Option Context
  | .Connect ctx _ => some ctx
  | .cancel => none
  | .Disconnect ctx => some ctx
  | .Find ctx _ _ _ => some ctx
  | .CursorClose ctx => some ctx
  | .TryNext ctx => some ctx
  | .DeleteMany ctx _ _ _ => some ctx
  | .BulkWrite ctx _ _ _ => some ctx

/-- The fields of `labixSession`; the client is the URI it was connected to, and the
cancel function is the one of `ctx`. -/
structure labixSession where
  client : GoString
  ctx : Context
  deriving DecidableEq, Repr

/-- Embeds `labixMongo.DialWithTimeout(url, timeout)` called at the instant `now`;
`connectErr` is the error of `mongo.Connect`. -/
def labixMongo.DialWithTimeout (now : Int) (url : GoString) (timeout : Int)
    (connectErr : Option GoError) : List MongoCall × Option labixSession × Option GoError :=
  let ctx := context_WithTimeout context_Background now timeout
  match connectErr with
  | some err => ([MongoCall.Connect ctx url, MongoCall.cancel], none, some err)
  | none => ([MongoCall.Connect ctx url], some ⟨url, ctx⟩, none)

/-- Embeds `labixSession.Close`; `disconnectErr` is the error of `Disconnect`. -/
def labixSession.Close (s : labixSession) (disconnectErr : Option GoError) :
    List MongoCall × Option GoError :=
  ([MongoCall.cancel, MongoCall.Disconnect s.ctx], disconnectErr)

/-- A `*mongo.Cursor`: whether `Close` has been called on it, the documents it has not
yet yielded, and its field `Current`. -/
structure mongo_Cursor where
  closed : Bool
  pending : List Document
  Current : Document
  deriving DecidableEq, Repr

/-- Embeds `cursor.Close(ctx)`. -/
def mongo_Cursor.Close (c : mongo_Cursor) : mongo_Cursor := { c with closed := true }

/-- The fields of `labixIter`; `cursor` is the state of the cursor it points to. -/
structure labixIter where
  cursor : mongo_Cursor
  ctx : Context
  deriving DecidableEq, Repr

/-- Embeds `labixSession.SnapshotIter(database, collection)`; `found` is what `Find` returns:
an error, or a cursor over the given documents.  The iterator holds a pointer to the
cursor, so it is returned with the state the cursor has once the deferred
`cursor.Close(s.ctx)` has run. -/
def labixSession.SnapshotIter (s : labixSession) (database collection : GoString)
    (found : Except GoError (List Document)) :
    List MongoCall × Option labixIter × Option GoError :=
  match found with
  | .error err => ([MongoCall.Find s.ctx database collection (some [])], none, some err)
  | .ok docs =>
    let cursor : mongo_Cursor := ⟨false, docs, []⟩
    let deferred := [MongoCall.CursorClose s.ctx]
    let cursor := cursor.Close
    (MongoCall.Find s.ctx database collection (some []) :: deferred, some ⟨cursor, s.ctx⟩, none)

/-- Embeds `labixSession.RemoveAll(database, collection, removeQuery)`; `deleteErr` is the
error of `DeleteMany`. -/
def labixSession.RemoveAll (s : labixSession) (database collection : GoString)
    (_removeQuery : Filter) (deleteErr : Option GoError) : List MongoCall × Option GoError :=
  ([MongoCall.DeleteMany s.ctx database collection none], deleteErr)

/-- The fields of `labixBulk`. -/
structure labixBulk where
  client : GoString
  ctx : Context
  database : GoString
  collection : GoString
  writeModels : List WriteModel
  deriving DecidableEq, Repr

/-- Embeds `labixSession.Bulk(database, collection)`. -/
def labixSession.Bulk (s : labixSession) (database collection : GoString) : labixBulk :=
  ⟨s.client, s.ctx, database, collection, []⟩

/-- Embeds `labixBulk.Run`; `bulkErr` is the error of `BulkWrite`.  The result is the writer
after the call, the calls made and the error. -/
def labixBulk.Run (b : labixBulk) (bulkErr : Option GoError) :
    labixBulk × List MongoCall × Option GoError :=
  (b, [MongoCall.BulkWrite b.ctx b.database b.collection b.writeModels], bulkErr)

/-- Embeds `labixBulk.Insert(data)`: the writer after the call and the calls made. -/
def labixBulk.Insert (b : labixBulk) (data : Document) : labixBulk × List MongoCall :=
  ({ b with writeModels := b.writeModels ++ [WriteModel.InsertOne data] }, [])

/-- The writer and the calls made after `Insert` of each document in turn. -/
def labixBulk.InsertAll (b : labixBulk) : List Document → labixBulk × List MongoCall
  | [] => (b, [])
  | d :: ds =>
    let r := b.Insert d
    let rs := labixBulk.InsertAll r.1 ds
    (rs.1, r.2 ++ rs.2)

/-- Embeds `labixIter.Next`; `tryNext` is what `cursor.TryNext` does to the cursor and
returns.  The result is the iterator after the call, the calls made and the pair
`(result, hasNext)`. -/
def labixIter.Next (i : labixIter) (tryNext : mongo_Cursor → mongo_Cursor × Bool) :
    labixIter × List MongoCall × (Document × Bool) :=
  let r := tryNext i.cursor
  (⟨r.1, i.ctx⟩, [MongoCall.TryNext i.ctx], (r.1.Current, r.2))

/-! ## app.go: what `main` logs -/

/-- What `app.Run(os.Args)` did: the messages logged while it ran, whether the
selected action ended the process through `log.Fatalf`, and the error it returned
otherwise. -/
structure AppRun where
  logged : List GoString
  exited : Bool
  err : Option GoError
  deriving DecidableEq, Repr

/-- The text `fmt.Sprint` gives for a `[]string`, as logged by `log.Info(os.Args)`. -/
def fmt_Sprint (a : List GoString) : GoString := '[' :: (strings_Join a [' '] ++ [']'])

/-- The messages logged by a run of `main` with the arguments `osArgs`: those of
`app.Run`, then, unless an action ended the process, `log.Info(os.Args)` and
`log.Fatal(err)` for a non-nil error. -/
def main_logged (osArgs : List GoString) (run : AppRun) : List GoString :=
  if run.exited then run.logged
  else
    run.logged ++ [fmt_Sprint osArgs] ++
      (match run.err with
       | some err => [err.msg]
       | none => [])

/-! ## Auxiliary notions for the path functions -/

/-- The output buffer of `filepath.Clean` read element by element: the number of
leading `..` elements it holds (the region the index `dotdot` protects) and the real
elements written after them, the last written first. -/
structure ElemBuf where
  dotdot : Nat
  elems : List GoString
  deriving DecidableEq, Repr

/-- One round of the scanning loop of `filepath.Clean`, on the path element `e`:
an empty element and `.` are skipped; `..` removes the last real element when there is
one, is dropped at the root, and is kept otherwise; any other element is appended. -/
def cleanElem (rooted : Bool) (out : ElemBuf) (e : GoString) : ElemBuf :=
  if e = [] then out
  else if e = ['.'] then out
  else if e = ['.', '.'] then
    match out.elems with
    | _ :: prev => ⟨out.dotdot, prev⟩
    | [] => if rooted then out else ⟨out.dotdot + 1, []⟩
  else ⟨out.dotdot, e :: out.elems⟩

/-- The string `filepath.Clean` returns for such a buffer: the elements separated by
single slashes, after the root slash of a rooted path; `.` when nothing was written. -/
def ElemBuf.string (rooted : Bool) (out : ElemBuf) : GoString :=
  let body := strings_Join (List.replicate out.dotdot ['.', '.'] ++ out.elems.reverse) ['/']
  if rooted then '/' :: body else if body = [] then ['.'] else body

/-- The result of `filepath.Clean(path)` computed element by element. -/
def elemClean (path : GoString) : GoString :=
  match path with
  | [] => ['.']
  | c :: _ =>
    let rooted := decide (c = '/')
    ElemBuf.string rooted ((strings_Split path '/').foldl (cleanElem rooted) ⟨0, []⟩)

/-- A path element that `filepath.Clean` copies: not empty, not `.`, not `..`, and
without a separator. -/
def realElem (e : GoString) : Prop :=
  e ≠ [] ∧ e ≠ ['.'] ∧ e ≠ ['.', '.'] ∧ '/' ∉ e

instance (e : GoString) : Decidable (realElem e) :=
  inferInstanceAs (Decidable (e ≠ [] ∧ e ≠ ['.'] ∧ e ≠ ['.', '.'] ∧ '/' ∉ e))

/-- The shape of every buffer `filepath.Clean` builds: no `..` is kept on a rooted
path, and the elements kept are real ones. -/
def ElemBuf.Wf (rooted : Bool) (out : ElemBuf) : Prop :=
  (rooted = true → out.dotdot = 0) ∧ ∀ e ∈ out.elems, realElem e

/-- The elements a buffer holds, in the order they are written out. -/
def ElemBuf.comps (out : ElemBuf) : List GoString :=
  List.replicate out.dotdot ['.', '.'] ++ out.elems.reverse

/-- The buffer `filepath.Clean` has built when it has scanned the whole path. -/
def cleanScan (rooted : Bool) (path : GoString) : ElemBuf :=
  (strings_Split path '/').foldl (cleanElem rooted) ⟨0, []⟩

/-- The bytes the scanning loop has written when its buffer holds the elements of `b`:
the root slash of a rooted path, then the elements separated by slashes. -/
def ElemBuf.bytes (rooted : Bool) (b : ElemBuf) : GoString :=
  (if rooted then ['/'] else []) ++ strings_Join b.comps ['/']

/-- The loop variables when the buffer holds the elements of `b`: `dotdot` is the
length of the part that holds the root slash and the leading `..` elements. -/
def ElemBuf.vars (rooted : Bool) (b : ElemBuf) : CleanVars :=
  ⟨(b.bytes rooted).reverse, (ElemBuf.bytes rooted ⟨b.dotdot, []⟩).length⟩

/-- What one or more rounds of the scanning loop do to the variables when they read
the non-empty path element `e`. -/
def cleanStepVars (rooted : Bool) (v : CleanVars) (e : GoString) : CleanVars :=
  if e = ['.'] then v
  else if e = ['.', '.'] then
    if v.out.length > v.dotdot then ⟨cleanBacktrack v.dotdot v.out, v.dotdot⟩
    else if rooted = false then
      ⟨'.' :: '.' :: (if v.out.length > 0 then '/' :: v.out else v.out),
        ('.' :: '.' :: (if v.out.length > 0 then '/' :: v.out else v.out)).length⟩
    else v
  else
    ⟨e.reverse ++
      (if (rooted = true ∧ v.out.length ≠ 1) ∨ (rooted = false ∧ v.out.length ≠ 0) then
        '/' :: v.out
      else v.out), v.dotdot⟩

/-- Sample paths with the result `filepath.Clean` gives for them on Unix. -/
def cleanSamples : List (String × String) :=
  [("abc", "abc"), ("abc/def", "abc/def"), ("a/b/c", "a/b/c"), (".", "."), ("..", ".."),
   ("../..", "../.."), ("../../abc", "../../abc"), ("/abc", "/abc"), ("/", "/"), ("", "."),
   ("abc/", "abc"), ("abc/def/", "abc/def"), ("a/b/c/", "a/b/c"), ("./", "."), ("../", ".."),
   ("../../", "../.."), ("/abc/", "/abc"), ("abc//def//ghi", "abc/def/ghi"),
   ("//abc", "/abc"), ("///abc", "/abc"), ("//abc//", "/abc"), ("abc//", "abc"),
   ("abc/./def", "abc/def"), ("/./abc/def", "/abc/def"), ("abc/.", "abc"),
   ("abc/def/ghi/../jkl", "abc/def/jkl"), ("abc/def/../ghi/../jkl", "abc/jkl"),
   ("abc/def/..", "abc"), ("abc/def/../..", "."), ("/abc/def/../..", "/"),
   ("abc/def/../../..", ".."), ("/abc/def/../../..", "/"),
   ("abc/def/../../../ghi/jkl/../../../mno", "../../mno"), ("/../abc", "/abc"),
   ("abc/./../def", "def"), ("abc//./../def", "def"), ("abc/../../././../def", "../../def")]

/-- Sample element lists with the result `filepath.Join` gives for them on Unix. -/
def joinSamples : List (List String × String) :=
  [([], ""), ([""], ""), (["a"], "a"), (["a", "b"], "a/b"), (["a", ""], "a"), (["", "b"], "b"),
   (["/", "a"], "/a"), (["/", "a/b"], "/a/b"), (["/", ""], "/"), (["//", "a"], "/a"),
   (["/a", "b"], "/a/b"), (["a/", "b"], "a/b"), (["a/", ""], "a"), (["", ""], "")]

/-! ## Facts about the library functions -/

/-- The model of `filepath.Clean` gives the expected result on the sample paths. -/
theorem filepath_Clean_samples :
    ∀ p ∈ cleanSamples, filepath_Clean p.1.toList = p.2.toList := by
  decide

/-- The model of `filepath.Join` gives the expected result on the sample lists. -/
theorem filepath_Join_samples :
    ∀ p ∈ joinSamples, filepath_Join (p.1.map String.toList) = p.2.toList := by
  decide

theorem strings_Split_ne_nil (s : GoString) (sep : Char) : strings_Split s sep ≠ [] := by
  cases s with
  | nil => simp [strings_Split]
  | cons c cs =>
    simp only [strings_Split]
    split <;> simp

theorem strings_Split_length (s : GoString) (sep : Char) :
    (strings_Split s sep).length = strings_Count s sep + 1 := by
  induction s with
  | nil => simp [strings_Split, strings_Count]
  | cons c cs ih =>
    have hne := strings_Split_ne_nil cs sep
    simp only [strings_Split, strings_Count] at ih ⊢
    by_cases h : c = sep
    · subst h
      simp [ih]
    · have hc : (c == sep) = false := by simpa using h
      rw [if_neg h, List.count_cons, hc]
      cases hs : strings_Split cs sep with
      | nil => exact absurd hs hne
      | cons x xs =>
        rw [hs] at ih
        simpa using ih

theorem strings_Split_of_not_mem (s : GoString) (sep : Char) (h : sep ∉ s) :
    strings_Split s sep = [s] := by
  induction s with
  | nil => rfl
  | cons c cs ih =>
    have hc : c ≠ sep := fun e => h (by simp [e])
    have hcs : sep ∉ cs := fun m => h (List.mem_cons_of_mem _ m)
    simp [strings_Split, hc, ih hcs]

theorem strings_Split_append (a b : GoString) (sep : Char) :
    strings_Split (a ++ sep :: b) sep = strings_Split a sep ++ strings_Split b sep := by
  induction a with
  | nil => simp [strings_Split]
  | cons c cs ih =>
    have hne := strings_Split_ne_nil cs sep
    by_cases h : c = sep
    · simp [strings_Split, h, ih]
    · rw [List.cons_append, strings_Split, strings_Split, if_neg h, if_neg h, ih]
      cases hs : strings_Split cs sep with
      | nil => exact absurd hs hne
      | cons x xs => simp

theorem strings_Split_Join (es : List GoString) (sep : Char) (hne : es ≠ [])
    (h : ∀ e ∈ es, sep ∉ e) : strings_Split (strings_Join es [sep]) sep = es := by
  induction es with
  | nil => exact absurd rfl hne
  | cons a rest ih =>
    cases rest with
    | nil => simpa [strings_Join] using strings_Split_of_not_mem a sep (h a (by simp))
    | cons b rest =>
      have ha : sep ∉ a := h a (by simp)
      have hr : ∀ e ∈ b :: rest, sep ∉ e := fun e he => h e (List.mem_cons_of_mem _ he)
      simp only [strings_Join, List.append_assoc, List.singleton_append]
      rw [strings_Split_append, strings_Split_of_not_mem a sep ha, ih (by simp) hr]
      rfl

theorem strings_Split_no_sep (s : GoString) (sep : Char) :
    ∀ e ∈ strings_Split s sep, sep ∉ e := by
  induction s with
  | nil => simp [strings_Split]
  | cons c cs ih =>
    have hne := strings_Split_ne_nil cs sep
    by_cases h : c = sep
    · intro e he
      rw [strings_Split, if_pos h] at he
      rcases List.mem_cons.mp he with rfl | he
      · simp
      · exact ih e he
    · intro e he
      rw [strings_Split, if_neg h] at he
      cases hs : strings_Split cs sep with
      | nil => exact absurd hs hne
      | cons x xs =>
        rw [hs] at he ih
        rcases List.mem_cons.mp he with rfl | he
        · have hx := ih x (by simp)
          simp only [List.headD_cons, List.mem_cons, not_or]
          exact ⟨fun e => h e.symm, hx⟩
        · exact ih e (List.mem_cons_of_mem _ he)

theorem strings_Join_Split (s : GoString) (sep : Char) :
    strings_Join (strings_Split s sep) [sep] = s := by
  induction s with
  | nil => rfl
  | cons c cs ih =>
    have hne := strings_Split_ne_nil cs sep
    by_cases h : c = sep
    · rw [strings_Split, if_pos h]
      cases hs : strings_Split cs sep with
      | nil => exact absurd hs hne
      | cons x xs =>
        rw [hs] at ih
        simp [strings_Join, ih, h]
    · rw [strings_Split, if_neg h]
      cases hs : strings_Split cs sep with
      | nil => exact absurd hs hne
      | cons x xs =>
        rw [hs] at ih
        cases xs with
        | nil => simpa [strings_Join] using ih
        | cons y ys =>
          simp only [strings_Join, List.headD_cons, List.tail_cons, List.cons_append] at ih ⊢
          rw [ih]

theorem strings_Join_cons (a : GoString) (rest : List GoString) (sep : GoString)
    (h : rest ≠ []) : strings_Join (a :: rest) sep = a ++ sep ++ strings_Join rest sep := by
  cases rest with
  | nil => exact absurd rfl h
  | cons b bs => rfl

theorem strings_Join_append_singleton (l : List GoString) (e sep : GoString) (h : l ≠ []) :
    strings_Join (l ++ [e]) sep = strings_Join l sep ++ sep ++ e := by
  induction l with
  | nil => exact absurd rfl h
  | cons a rest ih =>
    cases rest with
    | nil => simp [strings_Join]
    | cons b bs =>
      rw [List.cons_append, strings_Join_cons a _ sep (by simp), ih (by simp),
        strings_Join_cons a (b :: bs) sep (by simp)]
      simp

theorem strings_Join_eq_nil (l : List GoString) (sep : GoString) (h : ∀ e ∈ l, e ≠ [])
    (hj : strings_Join l sep = []) : l = [] := by
  cases l with
  | nil => rfl
  | cons a rest =>
    exfalso
    have ha : a ≠ [] := h a (by simp)
    cases rest with
    | nil => exact ha (by simpa [strings_Join] using hj)
    | cons b bs =>
      simp only [strings_Join, List.append_assoc, List.append_eq_nil] at hj
      exact ha hj.1

/-! ## Facts about `filepath.Clean` and `filepath.Join` -/

theorem cleanElem_real (rooted : Bool) (out : ElemBuf) (e : GoString) (h : realElem e) :
    cleanElem rooted out e = ⟨out.dotdot, e :: out.elems⟩ := by
  simp [cleanElem, h.1, h.2.1, h.2.2.1]

theorem cleanElem_Wf (rooted : Bool) (out : ElemBuf) (e : GoString) (he : '/' ∉ e)
    (h : out.Wf rooted) : (cleanElem rooted out e).Wf rooted := by
  unfold cleanElem
  split
  · exact h
  · split
    · exact h
    · split
      · cases hel : out.elems with
        | nil =>
          cases rooted with
          | true => simpa using h
          | false => exact ⟨by simp, by simp⟩
        | cons x prev =>
          refine ⟨h.1, fun y hy => h.2 y ?_⟩
          rw [hel]
          exact List.mem_cons_of_mem _ hy
      · refine ⟨h.1, fun y hy => ?_⟩
        rcases List.mem_cons.mp hy with rfl | hy
        · exact ⟨by assumption, by assumption, by assumption, he⟩
        · exact h.2 y hy

theorem foldl_cleanElem_Wf (rooted : Bool) (l : List GoString) (out : ElemBuf)
    (hl : ∀ e ∈ l, '/' ∉ e) (h : out.Wf rooted) :
    (l.foldl (cleanElem rooted) out).Wf rooted := by
  induction l generalizing out with
  | nil => exact h
  | cons e rest ih =>
    exact ih _ (fun x hx => hl x (List.mem_cons_of_mem _ hx))
      (cleanElem_Wf rooted out e (hl e (by simp)) h)

theorem foldl_cleanElem_real (rooted : Bool) (l : List GoString) (out : ElemBuf)
    (hl : ∀ e ∈ l, realElem e) :
    l.foldl (cleanElem rooted) out = ⟨out.dotdot, l.reverse ++ out.elems⟩ := by
  induction l generalizing out with
  | nil => rfl
  | cons e rest ih =>
    rw [List.foldl_cons, cleanElem_real rooted out e (hl e (by simp)),
      ih _ (fun x hx => hl x (List.mem_cons_of_mem _ hx))]
    simp

theorem foldl_cleanElem_dotdot (n k : Nat) :
    (List.replicate n ['.', '.']).foldl (cleanElem false) ⟨k, []⟩ = ⟨k + n, []⟩ := by
  induction n generalizing k with
  | zero => rfl
  | succ n ih =>
    rw [List.replicate_succ, List.foldl_cons]
    have : cleanElem false ⟨k, []⟩ ['.', '.'] = ⟨k + 1, []⟩ := by simp [cleanElem]
    rw [this, ih]
    congr 1
    omega

theorem ElemBuf.comps_no_sep (rooted : Bool) (out : ElemBuf) (h : out.Wf rooted) :
    ∀ e ∈ out.comps, '/' ∉ e := by
  intro e he
  rcases List.mem_append.mp he with he | he
  · rw [(List.mem_replicate.mp he).2]
    decide
  · exact (h.2 e (List.mem_reverse.mp he)).2.2.2

theorem ElemBuf.comps_ne_nil (rooted : Bool) (out : ElemBuf) (h : out.Wf rooted) :
    ∀ e ∈ out.comps, e ≠ [] := by
  intro e he
  rcases List.mem_append.mp he with he | he
  · rw [(List.mem_replicate.mp he).2]
    decide
  · exact (h.2 e (List.mem_reverse.mp he)).1

theorem ElemBuf.foldl_comps (rooted : Bool) (out : ElemBuf) (h : out.Wf rooted) :
    out.comps.foldl (cleanElem rooted) ⟨0, []⟩ = out := by
  have hreal : ∀ e ∈ out.elems.reverse, realElem e :=
    fun e he => h.2 e (List.mem_reverse.mp he)
  cases rooted with
  | true =>
    have h0 : out.dotdot = 0 := h.1 rfl
    rw [ElemBuf.comps, h0, List.replicate_zero, List.nil_append,
      foldl_cleanElem_real true _ _ hreal]
    cases out
    simp_all
  | false =>
    rw [ElemBuf.comps, List.foldl_append, foldl_cleanElem_dotdot,
      foldl_cleanElem_real false _ _ hreal]
    cases out
    simp

theorem ElemBuf.string_eq (rooted : Bool) (out : ElemBuf) :
    out.string rooted
      = if rooted = true then '/' :: strings_Join out.comps ['/']
        else if strings_Join out.comps ['/'] = [] then ['.']
        else strings_Join out.comps ['/'] := rfl

theorem cleanElem_nil (rooted : Bool) (out : ElemBuf) : cleanElem rooted out [] = out := by
  simp [cleanElem]

theorem cleanElem_dot (rooted : Bool) (out : ElemBuf) : cleanElem rooted out ['.'] = out := by
  simp [cleanElem]

/-- Scanning the string written for a buffer builds that buffer again. -/
theorem ElemBuf.scan_string (rooted : Bool) (out : ElemBuf) (h : out.Wf rooted) :
    (strings_Split (out.string rooted) '/').foldl (cleanElem rooted) ⟨0, []⟩ = out := by
  have hsep := ElemBuf.comps_no_sep rooted out h
  have hnn := ElemBuf.comps_ne_nil rooted out h
  have hf := ElemBuf.foldl_comps rooted out h
  rw [ElemBuf.string_eq]
  by_cases hc : out.comps = []
  · rw [hc] at hf ⊢
    cases rooted with
    | true => simpa [strings_Join, strings_Split, cleanElem_nil] using hf
    | false => simpa [strings_Join, strings_Split, cleanElem_dot] using hf
  · have hj : strings_Join out.comps ['/'] ≠ [] :=
      fun e => hc (strings_Join_eq_nil _ _ hnn e)
    have hs := strings_Split_Join out.comps '/' hc hsep
    cases rooted with
    | true =>
      simp only [if_true]
      rw [strings_Split, if_pos rfl, hs, List.foldl_cons, cleanElem_nil, hf]
    | false =>
      simp only [Bool.false_eq_true, if_false, if_neg hj]
      rw [hs, hf]

/-- The string written for a buffer starts with a separator exactly on a rooted path. -/
theorem ElemBuf.string_head (rooted : Bool) (out : ElemBuf) (h : out.Wf rooted) :
    ∃ c rest, out.string rooted = c :: rest ∧ decide (c = '/') = rooted := by
  rw [ElemBuf.string_eq]
  cases rooted with
  | true => exact ⟨'/', strings_Join out.comps ['/'], by simp, by simp⟩
  | false =>
    simp only [Bool.false_eq_true, if_false]
    split
    · exact ⟨'.', [], rfl, by decide⟩
    · rename_i hj
      have hsep := ElemBuf.comps_no_sep false out h
      have hnn := ElemBuf.comps_ne_nil false out h
      cases hc : out.comps with
      | nil => rw [hc] at hj; exact absurd rfl hj
      | cons a rest =>
        rw [hc] at hsep hnn
        have ha : a ≠ [] := hnn a (by simp)
        have hsa : '/' ∉ a := hsep a (by simp)
        cases a with
        | nil => exact absurd rfl ha
        | cons c cs =>
          have hcne : c ≠ '/' := fun e => hsa (by simp [e])
          cases rest with
          | nil => exact ⟨c, cs, by simp [strings_Join], by simpa using hcne⟩
          | cons b bs =>
            exact ⟨c, cs ++ ['/'] ++ strings_Join (b :: bs) ['/'],
              by simp only [strings_Join, List.cons_append], by simpa using hcne⟩

theorem dropWhile_sep (l : GoString) :
    l.dropWhile (fun b => decide (b ≠ '/')) = []
      ∨ ∃ r, l.dropWhile (fun b => decide (b ≠ '/')) = '/' :: r := by
  induction l with
  | nil => exact Or.inl rfl
  | cons c cs ih =>
    by_cases h : c = '/'
    · exact Or.inr ⟨cs, by simp [List.dropWhile, h]⟩
    · simpa [List.dropWhile, h] using ih

theorem takeWhile_no_sep (l : GoString) :
    '/' ∉ l.takeWhile (fun b => decide (b ≠ '/')) := by
  intro hm
  simpa using List.mem_takeWhile_imp hm

theorem dropWhile_length_le (l : GoString) :
    (l.dropWhile (fun b => decide (b ≠ '/'))).length ≤ l.length := by
  induction l with
  | nil => simp
  | cons c cs ih =>
    simp only [List.dropWhile]
    split
    · exact Nat.le_succ_of_le ih
    · exact Nat.le_refl _

/-- Reading an element and what follows it is reading the element, then the rest. -/
theorem foldl_Split_elem (rooted : Bool) (b : ElemBuf) (e rest : GoString) (he : '/' ∉ e)
    (hr : rest = [] ∨ ∃ r, rest = '/' :: r) :
    (strings_Split (e ++ rest) '/').foldl (cleanElem rooted) b
      = (strings_Split rest '/').foldl (cleanElem rooted) (cleanElem rooted b e) := by
  rcases hr with rfl | ⟨r, rfl⟩
  · rw [List.append_nil, strings_Split_of_not_mem e '/' he]
    simp [strings_Split, cleanElem_nil]
  · rw [strings_Split_append, strings_Split_of_not_mem e '/' he]
    simp [strings_Split, cleanElem_nil]

theorem cleanLoop_nil (rooted : Bool) (fuel : Nat) (v : CleanVars) :
    cleanLoop rooted fuel [] v = v := by
  cases fuel <;> rfl

theorem cleanLoop_sep (rooted : Bool) (fuel : Nat) (rest : GoString) (v : CleanVars) :
    cleanLoop rooted (fuel + 1) ('/' :: rest) v = cleanLoop rooted fuel rest v := by
  simp [cleanLoop]

/-- The rounds of the loop that read one path element, in terms of that element. -/
theorem cleanLoop_step (rooted : Bool) (fuel : Nat) (c : Char) (rest : GoString)
    (v : CleanVars) (hc : c ≠ '/') :
    cleanLoop rooted (fuel + 1) (c :: rest) v
      = cleanLoop rooted fuel ((c :: rest).dropWhile (fun b => decide (b ≠ '/')))
          (cleanStepVars rooted v ((c :: rest).takeWhile (fun b => decide (b ≠ '/')))) := by
  rw [cleanLoop]
  simp only [hc, if_false]
  by_cases hdot : c = '.'
  · subst hdot
    cases rest with
    | nil => simp [cleanStepVars, List.takeWhile, List.dropWhile]
    | cons c2 r2 =>
      by_cases h2 : c2 = '/'
      · subst h2
        simp [cleanStepVars, List.takeWhile, List.dropWhile]
      · by_cases h2d : c2 = '.'
        · subst h2d
          cases r2 with
          | nil =>
            simp only [cleanStepVars, List.takeWhile, List.dropWhile]
            simp only [List.head?_cons, List.tail_cons, true_or, and_self, if_true]
            split_ifs <;> first | rfl | simp_all
          | cons c3 r3 =>
            by_cases h3 : c3 = '/'
            · subst h3
              simp only [cleanStepVars, List.takeWhile, List.dropWhile]
              simp only [List.head?_cons, List.tail_cons, or_true, and_self, if_true]
              split_ifs <;> first | rfl | simp_all
            · simp [cleanStepVars, List.takeWhile, List.dropWhile, h3]
        · simp [cleanStepVars, List.takeWhile, List.dropWhile, h2, h2d]
  · simp [cleanStepVars, List.takeWhile, List.dropWhile, hc, hdot]

theorem ElemBuf.comps_eq_nil (d : Nat) (elems : List GoString) :
    (⟨d, elems⟩ : ElemBuf).comps = [] ↔ d = 0 ∧ elems = [] := by
  simp [ElemBuf.comps, List.replicate_eq_nil_iff]

theorem ElemBuf.bytes_cons (rooted : Bool) (d : Nat) (e : GoString) (elems : List GoString) :
    ElemBuf.bytes rooted ⟨d, e :: elems⟩
      = if (⟨d, elems⟩ : ElemBuf).comps = [] then (if rooted then ['/'] else []) ++ e
        else ElemBuf.bytes rooted ⟨d, elems⟩ ++ '/' :: e := by
  have hc : (⟨d, e :: elems⟩ : ElemBuf).comps = (⟨d, elems⟩ : ElemBuf).comps ++ [e] := by
    simp [ElemBuf.comps]
  rw [ElemBuf.bytes, hc]
  by_cases h : (⟨d, elems⟩ : ElemBuf).comps = []
  · rw [if_pos h, h]
    rfl
  · rw [if_neg h, strings_Join_append_singleton _ _ _ h, ElemBuf.bytes]
    simp

theorem ElemBuf.bytes_nil_nil (rooted : Bool) :
    ElemBuf.bytes rooted ⟨0, []⟩ = if rooted then ['/'] else [] := by
  cases rooted <;> rfl

theorem ElemBuf.bytes_length_ge (rooted : Bool) (d : Nat) (elems : List GoString) :
    (ElemBuf.bytes rooted ⟨d, []⟩).length ≤ (ElemBuf.bytes rooted ⟨d, elems⟩).length := by
  induction elems with
  | nil => exact Nat.le_refl _
  | cons e rest ih =>
    rw [ElemBuf.bytes_cons]
    by_cases h : (⟨d, rest⟩ : ElemBuf).comps = []
    · obtain ⟨rfl, rfl⟩ := (ElemBuf.comps_eq_nil d rest).mp h
      rw [if_pos h, ElemBuf.bytes_nil_nil]
      simp
    · rw [if_neg h, List.length_append]
      omega

theorem ElemBuf.bytes_length_gt (rooted : Bool) (d : Nat) (e : GoString)
    (elems : List GoString) (he : e ≠ []) :
    (ElemBuf.bytes rooted ⟨d, []⟩).length < (ElemBuf.bytes rooted ⟨d, e :: elems⟩).length := by
  have hge := ElemBuf.bytes_length_ge rooted d elems
  have hpos : 0 < e.length := List.length_pos.mpr he
  rw [ElemBuf.bytes_cons]
  by_cases h : (⟨d, elems⟩ : ElemBuf).comps = []
  · obtain ⟨rfl, rfl⟩ := (ElemBuf.comps_eq_nil d elems).mp h
    rw [if_pos h, ElemBuf.bytes_nil_nil, List.length_append]
    omega
  · rw [if_neg h, List.length_append, List.length_cons]
    omega

theorem cleanBacktrack_sep (dotdot : Nat) (l y : List Char) (hl : '/' ∉ l)
    (hy : dotdot ≤ y.length) : cleanBacktrack dotdot (l ++ '/' :: y) = y := by
  induction l with
  | nil => simp [cleanBacktrack]
  | cons b rest ih =>
    have hb : b ≠ '/' := fun e => hl (by simp [e])
    have hr : '/' ∉ rest := fun m => hl (List.mem_cons_of_mem _ m)
    rw [List.cons_append, cleanBacktrack, if_pos, ih hr]
    refine ⟨?_, hb⟩
    rw [List.length_append, List.length_cons]
    omega

theorem cleanBacktrack_stop (dotdot : Nat) (l y : List Char) (hl : '/' ∉ l) (hne : l ≠ [])
    (hy : y.length = dotdot) : cleanBacktrack dotdot (l ++ y) = y := by
  induction l with
  | nil => exact absurd rfl hne
  | cons b rest ih =>
    have hb : b ≠ '/' := fun e => hl (by simp [e])
    have hr : '/' ∉ rest := fun m => hl (List.mem_cons_of_mem _ m)
    by_cases hrest : rest = []
    · subst hrest
      rw [List.cons_append, List.nil_append, cleanBacktrack, if_neg]
      rw [hy]
      omega
    · rw [List.cons_append, cleanBacktrack, if_pos, ih hr hrest]
      refine ⟨?_, hb⟩
      have : 0 < rest.length := List.length_pos.mpr hrest
      rw [List.length_append]
      omega

theorem strings_Join_dotdot_succ (d : Nat) :
    strings_Join (List.replicate (d + 1) ['.', '.']) ['/']
      = if d = 0 then ['.', '.']
        else strings_Join (List.replicate d ['.', '.']) ['/'] ++ ['/', '.', '.'] := by
  by_cases hd : d = 0
  · subst hd
    rfl
  · rw [if_neg hd, List.replicate_succ', strings_Join_append_singleton _ _ _ (by simpa using hd)]
    simp

theorem strings_Join_dotdot_length (d : Nat) :
    (strings_Join (List.replicate d ['.', '.']) ['/']).length = 0 ↔ d = 0 := by
  constructor
  · intro h
    have hnil := strings_Join_eq_nil (List.replicate d ['.', '.']) ['/']
      (fun e he => by rw [(List.mem_replicate.mp he).2]; simp) (List.length_eq_zero.mp h)
    simpa [List.replicate_eq_nil_iff] using hnil
  · rintro rfl
    rfl

/-- The bytes of a buffer that holds elements are more than its root slash. -/
theorem ElemBuf.bytes_length_comps (rooted : Bool) (b : ElemBuf) (hw : b.Wf rooted)
    (hne : b.comps ≠ []) :
    (rooted = true ∧ (b.bytes rooted).length ≠ 1)
      ∨ (rooted = false ∧ (b.bytes rooted).length ≠ 0) := by
  have hj : strings_Join b.comps ['/'] ≠ [] :=
    fun e => hne (strings_Join_eq_nil _ _ (ElemBuf.comps_ne_nil rooted b hw) e)
  have hpos : 0 < (strings_Join b.comps ['/']).length := List.length_pos.mpr hj
  cases rooted with
  | true =>
    refine Or.inl ⟨rfl, ?_⟩
    simp only [ElemBuf.bytes, if_true, List.length_append, List.length_singleton]
    omega
  | false =>
    refine Or.inr ⟨rfl, ?_⟩
    simp only [ElemBuf.bytes, Bool.false_eq_true, if_false, List.nil_append]
    omega

/-- The rounds of the loop that read one element do to the bytes what `cleanElem`
does to the elements. -/
theorem cleanStepVars_vars (rooted : Bool) (b : ElemBuf) (e : GoString) (hw : b.Wf rooted)
    (hne : e ≠ []) (hsep : '/' ∉ e) :
    cleanStepVars rooted (b.vars rooted) e = (cleanElem rooted b e).vars rooted := by
  obtain ⟨d, elems⟩ := b
  by_cases h1 : e = ['.']
  · simp [cleanStepVars, cleanElem, h1]
  by_cases h2 : e = ['.', '.']
  · subst h2
    cases elems with
    | nil =>
      cases rooted with
      | true => simp [cleanStepVars, cleanElem, ElemBuf.vars]
      | false =>
        have hlen := strings_Join_dotdot_length d
        have hsucc := strings_Join_dotdot_succ d
        have hce : cleanElem false ⟨d, []⟩ ['.', '.'] = ⟨d + 1, []⟩ := by simp [cleanElem]
        rw [hce]
        unfold cleanStepVars
        rw [if_neg h1, if_pos rfl]
        simp only [ElemBuf.vars, ElemBuf.bytes, ElemBuf.comps, List.reverse_nil,
          List.append_nil, Bool.false_eq_true, if_false, List.nil_append,
          List.length_reverse, gt_iff_lt, lt_self_iff_false, if_true]
        by_cases hd : d = 0
        · subst hd
          simp [strings_Join]
        · have hpos : 0 < (strings_Join (List.replicate d ['.', '.']) ['/']).length := by
            rcases Nat.eq_zero_or_pos (strings_Join (List.replicate d ['.', '.']) ['/']).length
              with h0 | h0
            · exact absurd (hlen.mp h0) hd
            · exact h0
          rw [hsucc, if_neg hd, if_pos hpos]
          simp
    | cons x prev =>
      have hx : realElem x := hw.2 x (by simp)
      have hgt := ElemBuf.bytes_length_gt rooted d x prev hx.1
      have hge := ElemBuf.bytes_length_ge rooted d prev
      have hxr : '/' ∉ x.reverse := fun m => hx.2.2.2 (List.mem_reverse.mp m)
      have hxn : x.reverse ≠ [] := fun m => hx.1 (List.reverse_eq_nil_iff.mp m)
      have hback : cleanBacktrack (ElemBuf.bytes rooted ⟨d, []⟩).length
          (ElemBuf.bytes rooted ⟨d, x :: prev⟩).reverse
            = (ElemBuf.bytes rooted ⟨d, prev⟩).reverse := by
        rw [ElemBuf.bytes_cons]
        by_cases hc : (⟨d, prev⟩ : ElemBuf).comps = []
        · obtain ⟨rfl, rfl⟩ := (ElemBuf.comps_eq_nil d prev).mp hc
          rw [if_pos hc, List.reverse_append, ← ElemBuf.bytes_nil_nil]
          exact cleanBacktrack_stop _ _ _ hxr hxn (by simp)
        · rw [if_neg hc, List.reverse_append, List.reverse_cons, List.append_assoc,
            List.singleton_append]
          exact cleanBacktrack_sep _ _ _ hxr (by simpa using hge)
      simp only [cleanStepVars, cleanElem, ElemBuf.vars, List.length_reverse, gt_iff_lt, hgt,
        if_true, hback]
      simp
  · have hce : cleanElem rooted ⟨d, elems⟩ e = ⟨d, e :: elems⟩ := by
      simp [cleanElem, hne, h1, h2]
    rw [hce]
    simp only [cleanStepVars, if_neg h1, if_neg h2, ElemBuf.vars, List.length_reverse]
    congr 1
    rw [ElemBuf.bytes_cons]
    by_cases hc : (⟨d, elems⟩ : ElemBuf).comps = []
    · obtain ⟨rfl, rfl⟩ := (ElemBuf.comps_eq_nil d elems).mp hc
      rw [if_pos hc, ElemBuf.bytes_nil_nil]
      cases rooted <;> simp
    · rw [if_neg hc, if_pos (ElemBuf.bytes_length_comps rooted ⟨d, elems⟩ hw hc)]
      simp

/-- With fuel for every byte still to be read, the loop leaves the variables that stand
for the buffer built element by element. -/
theorem cleanLoop_vars (rooted : Bool) (fuel : Nat) (path : GoString) (b : ElemBuf)
    (hw : b.Wf rooted) (hf : path.length ≤ fuel) :
    cleanLoop rooted fuel path (b.vars rooted)
      = ((strings_Split path '/').foldl (cleanElem rooted) b).vars rooted := by
  induction fuel generalizing path b with
  | zero =>
    have hp : path = [] := List.length_eq_zero.mp (Nat.le_zero.mp hf)
    subst hp
    simp [cleanLoop, strings_Split, cleanElem_nil]
  | succ fuel ih =>
    cases path with
    | nil => simp [cleanLoop, strings_Split, cleanElem_nil]
    | cons c rest =>
      have hrest : rest.length ≤ fuel := by simpa using hf
      by_cases hc : c = '/'
      · subst hc
        rw [cleanLoop_sep, ih rest b hw hrest, strings_Split, if_pos rfl, List.foldl_cons,
          cleanElem_nil]
      · have htw : (c :: rest).takeWhile (fun b => decide (b ≠ '/')) ≠ [] := by
          simp [List.takeWhile, hc]
        have hsep := takeWhile_no_sep (c :: rest)
        have hdw : ((c :: rest).dropWhile (fun b => decide (b ≠ '/'))).length ≤ fuel := by
          have hle := dropWhile_length_le rest
          have hd : (c :: rest).dropWhile (fun b => decide (b ≠ '/'))
              = rest.dropWhile (fun b => decide (b ≠ '/')) := by
            simp [List.dropWhile, hc]
          rw [hd]
          omega
        rw [cleanLoop_step rooted fuel c rest _ hc, cleanStepVars_vars rooted b _ hw htw hsep,
          ih _ _ (cleanElem_Wf rooted b _ hsep hw) hdw,
          ← foldl_Split_elem rooted b _ _ hsep (dropWhile_sep (c :: rest)),
          List.takeWhile_append_dropWhile]

/-- The scanning loop of `filepath.Clean` computes the element-by-element result. -/
theorem filepath_Clean_eq_elemClean (path : GoString) : filepath_Clean path = elemClean path := by
  cases path with
  | nil => rfl
  | cons c rest =>
    have hfinal : ∀ (rooted : Bool) (b : ElemBuf), b.Wf rooted →
        (if (b.vars rooted).out.length = 0 then ['.'] else (b.vars rooted).out.reverse)
          = b.string rooted := by
      intro rooted b hw
      rw [ElemBuf.string_eq]
      cases rooted with
      | true => simp [ElemBuf.vars, ElemBuf.bytes]
      | false => simp [ElemBuf.vars, ElemBuf.bytes]
    have hinit : ∀ rooted : Bool, (⟨0, []⟩ : ElemBuf).Wf rooted :=
      fun _ => ⟨fun _ => rfl, by simp⟩
    by_cases hc : c = '/'
    · subst hc
      have hv : (⟨['/'], 1⟩ : CleanVars) = (⟨0, []⟩ : ElemBuf).vars true := rfl
      simp only [filepath_Clean, elemClean, decide_True, if_true]
      rw [hv, cleanLoop_vars true _ rest _ (hinit true) (by simp),
        hfinal true _ (foldl_cleanElem_Wf true _ _ (strings_Split_no_sep rest '/') (hinit true))]
      simp [strings_Split, cleanElem_nil]
    · have hv : (⟨[], 0⟩ : CleanVars) = (⟨0, []⟩ : ElemBuf).vars false := rfl
      simp only [filepath_Clean, elemClean, hc, decide_False, Bool.false_eq_true, if_false]
      rw [hv, cleanLoop_vars false _ (c :: rest) _ (hinit false) (Nat.le_refl _),
        hfinal false _ (foldl_cleanElem_Wf false _ _ (strings_Split_no_sep (c :: rest) '/')
          (hinit false))]

theorem filepath_Clean_cons (c : Char) (cs : GoString) :
    filepath_Clean (c :: cs) = (cleanScan (decide (c = '/')) (c :: cs)).string (decide (c = '/')) := by
  rw [filepath_Clean_eq_elemClean]
  rfl

theorem cleanScan_Wf (rooted : Bool) (path : GoString) : (cleanScan rooted path).Wf rooted :=
  foldl_cleanElem_Wf rooted _ _ (strings_Split_no_sep path '/') ⟨fun _ => rfl, by simp⟩

theorem cleanScan_append (rooted : Bool) (p q : GoString) :
    cleanScan rooted (p ++ '/' :: q)
      = (strings_Split q '/').foldl (cleanElem rooted) (cleanScan rooted p) := by
  rw [cleanScan, strings_Split_append, List.foldl_append]
  rfl

theorem filepath_Clean_ne_nil (path : GoString) : filepath_Clean path ≠ [] := by
  cases path with
  | nil => simp [filepath_Clean]
  | cons c cs =>
    rw [filepath_Clean_cons]
    obtain ⟨c', rest, h, _⟩ := ElemBuf.string_head _ _ (cleanScan_Wf (decide (c = '/')) (c :: cs))
    rw [h]
    simp

/-- Cleaning a prefix first does not change the cleaned path. -/
theorem filepath_Clean_Clean_append (p q : GoString) (hp : p ≠ []) :
    filepath_Clean (filepath_Clean p ++ '/' :: q) = filepath_Clean (p ++ '/' :: q) := by
  cases p with
  | nil => exact absurd rfl hp
  | cons c cs =>
    have hwf := cleanScan_Wf (decide (c = '/')) (c :: cs)
    obtain ⟨c', rest, h, hr⟩ := ElemBuf.string_head _ _ hwf
    have hscan := ElemBuf.scan_string _ _ hwf
    rw [filepath_Clean_cons c cs, h, List.cons_append, List.cons_append,
      filepath_Clean_cons, filepath_Clean_cons, hr, ← List.cons_append, ← List.cons_append,
      cleanScan_append, cleanScan_append, ← h]
    congr 2

theorem filepath_Join_nil_cons (l : List GoString) :
    filepath_Join ([] :: l) = filepath_Join l := by
  simp [filepath_Join]

theorem filepath_Join_cons (a : GoString) (l : List GoString) (ha : a ≠ []) :
    filepath_Join (a :: l) = filepath_Clean (strings_Join (a :: l) ['/']) := by
  simp [filepath_Join, ha]

theorem strings_Join_cons_ne_nil (a : GoString) (l : List GoString) (sep : GoString)
    (ha : a ≠ []) : strings_Join (a :: l) sep ≠ [] := by
  cases l with
  | nil => simpa [strings_Join] using ha
  | cons b bs => simp [strings_Join, ha]

/-- Joining in two steps gives the path joined in one step. -/
theorem filepath_Join_Join (l : List GoString) (c : GoString) :
    filepath_Join [filepath_Join l, c] = filepath_Join (l ++ [c]) := by
  induction l with
  | nil =>
    have : filepath_Join [] = [] := rfl
    rw [this, filepath_Join_nil_cons]
    rfl
  | cons a rest ih =>
    by_cases ha : a = []
    · subst ha
      rw [List.cons_append, filepath_Join_nil_cons, filepath_Join_nil_cons, ih]
    · have hj := strings_Join_cons_ne_nil a rest ['/'] ha
      rw [List.cons_append, filepath_Join_cons a _ ha, filepath_Join_cons a _ ha,
        filepath_Join_cons _ _ (filepath_Clean_ne_nil _), ← List.cons_append,
        strings_Join_append_singleton _ _ _ (by simp)]
      simp only [strings_Join, List.append_assoc, List.singleton_append]
      exact filepath_Clean_Clean_append _ _ hj

theorem strings_Join_append (l m : List GoString) (sep : GoString) (hl : l ≠ [])
    (hm : m ≠ []) :
    strings_Join (l ++ m) sep = strings_Join l sep ++ sep ++ strings_Join m sep := by
  induction l with
  | nil => exact absurd rfl hl
  | cons a rest ih =>
    cases rest with
    | nil =>
      rw [List.singleton_append, strings_Join_cons a m sep hm]
      rfl
    | cons b bs =>
      rw [List.cons_append, strings_Join_cons a _ sep (by simp), ih (by simp),
        strings_Join_cons a (b :: bs) sep (by simp)]
      simp

/-- Writing real elements after a buffer that is not empty appends them, each after a
separator, to the string of the buffer. -/
theorem ElemBuf.string_push (rooted : Bool) (out : ElemBuf) (l : List GoString)
    (hw : out.Wf rooted) (hl : l ≠ []) (hne : out.comps ≠ []) :
    (⟨out.dotdot, l.reverse ++ out.elems⟩ : ElemBuf).string rooted
      = out.string rooted ++ '/' :: strings_Join l ['/'] := by
  have hnn := ElemBuf.comps_ne_nil rooted out hw
  have hj : strings_Join out.comps ['/'] ≠ [] := fun e => hne (strings_Join_eq_nil _ _ hnn e)
  have hcomps : (⟨out.dotdot, l.reverse ++ out.elems⟩ : ElemBuf).comps = out.comps ++ l := by
    simp [ElemBuf.comps]
  rw [ElemBuf.string_eq, ElemBuf.string_eq, hcomps, strings_Join_append _ _ _ hne hl]
  cases rooted with
  | true => simp
  | false => simp [hj]

theorem realElem_collection_extension (collection : GoString) (h : '/' ∉ collection) :
    realElem (collection ++ extension) := by
  have hlen : (collection ++ extension).length = collection.length + 12 := by
    rw [List.length_append]
    rfl
  refine ⟨?_, ?_, ?_, ?_⟩
  · intro e
    rw [e] at hlen
    simp at hlen
  · intro e
    rw [e] at hlen
    simp at hlen
  · intro e
    rw [e] at hlen
    simp at hlen
  · intro hm
    rcases List.mem_append.mp hm with hm | hm
    · exact h hm
    · revert hm
      decide

/-- For a clean base directory other than `.` and `/`, real elements `date` and
`database` and a collection name without separator, `filepath.Join` of the four
elements is the literal layout. -/
theorem filepath_Join_layout (baseDir date database collection : GoString)
    (hclean : filepath_Clean baseDir = baseDir) (hdot : baseDir ≠ ['.'])
    (hroot : baseDir ≠ ['/']) (hdate : realElem date) (hdb : realElem database)
    (hcoll : '/' ∉ collection) :
    filepath_Join [baseDir, date, database, collection ++ extension]
      = layoutKey baseDir date database collection := by
  have hb : baseDir ≠ [] := fun e => filepath_Clean_ne_nil baseDir (by rw [hclean]; exact e)
  have hc := realElem_collection_extension collection hcoll
  cases hbd : baseDir with
  | nil => exact absurd hbd hb
  | cons c cs =>
    rw [hbd] at hclean
    rw [filepath_Clean_cons] at hclean
    have hwf := cleanScan_Wf (decide (c = '/')) (c :: cs)
    have hne : (cleanScan (decide (c = '/')) (c :: cs)).comps ≠ [] := by
      intro e
      rw [ElemBuf.string_eq, e] at hclean
      rw [hbd, ← hclean] at hdot hroot
      by_cases hr : c = '/'
      · simp [hr, strings_Join] at hroot
      · simp [hr, strings_Join] at hdot
    have hsplit : strings_Split (date ++ '/' :: (database ++ '/' :: (collection ++ extension))) '/'
        = [date, database, collection ++ extension] := by
      rw [strings_Split_append, strings_Split_append, strings_Split_of_not_mem _ _ hdate.2.2.2,
        strings_Split_of_not_mem _ _ hdb.2.2.2, strings_Split_of_not_mem _ _ hc.2.2.2]
      rfl
    have hreal : ∀ e ∈ [date, database, collection ++ extension], realElem e := by
      intro e he
      simp only [List.mem_cons, List.mem_singleton, List.not_mem_nil, or_false] at he
      rcases he with rfl | rfl | rfl
      · exact hdate
      · exact hdb
      · exact hc
    have hjoin : strings_Join [c :: cs, date, database, collection ++ extension] ['/']
        = (c :: cs) ++ '/' :: (date ++ '/' :: (database ++ '/' :: (collection ++ extension))) := by
      simp [strings_Join]
    rw [filepath_Join_cons _ _ (by simp), hjoin, List.cons_append, filepath_Clean_cons,
      ← List.cons_append, cleanScan_append, hsplit, foldl_cleanElem_real _ _ _ hreal,
      ElemBuf.string_push _ _ _ hwf (by simp) hne, hclean]
    simp [layoutKey, strings_Join]

/-! ## Facts about `parseCollections` -/

theorem strings_Split_renderPair (p : dbColl) (hd : '/' ∉ p.database)
    (hc : '/' ∉ p.collection) :
    strings_Split (renderPair p) '/' = [p.database, p.collection] := by
  rw [renderPair, strings_Split_append, strings_Split_of_not_mem _ _ hd,
    strings_Split_of_not_mem _ _ hc]
  rfl

theorem parseCollectionsLoop_render (colls : GoString) (pairs : List dbColl)
    (h : ∀ p ∈ pairs, '/' ∉ p.database ∧ '/' ∉ p.collection) (cn : Option (List dbColl)) :
    parseCollectionsLoop colls (pairs.map renderPair) cn
      = (pairs.foldl sliceAppend cn, none) := by
  induction pairs generalizing cn with
  | nil => rfl
  | cons p rest ih =>
    have hp := h p (by simp)
    have hr : ∀ q ∈ rest, '/' ∉ q.database ∧ '/' ∉ q.collection :=
      fun q hq => h q (List.mem_cons_of_mem _ hq)
    simp only [List.map_cons, parseCollectionsLoop, strings_Split_renderPair p hp.1 hp.2,
      List.foldl_cons]
    simpa using ih hr _

theorem foldl_sliceAppend_some {α : Type} (l acc : List α) :
    l.foldl sliceAppend (some acc) = some (acc ++ l) := by
  induction l generalizing acc with
  | nil => simp
  | cons x xs ih => simp [sliceAppend, ih]

theorem parseCollectionsLoop_error_iff (colls : GoString) (entries : List GoString)
    (cn : Option (List dbColl)) :
    ((parseCollectionsLoop colls entries cn).2 ≠ none
        ↔ ∃ e ∈ entries, strings_Count e '/' ≠ 1)
      ∧ ((parseCollectionsLoop colls entries cn).2 ≠ none
        → (parseCollectionsLoop colls entries cn).1 = none) := by
  induction entries generalizing cn with
  | nil => simp [parseCollectionsLoop]
  | cons e rest ih =>
    have hl := strings_Split_length e '/'
    by_cases hc : strings_Count e '/' = 1
    · have h2 : (strings_Split e '/').length = 2 := by omega
      simp only [parseCollectionsLoop, h2, ne_eq, not_true_eq_false, if_false]
      constructor
      · have := (ih (sliceAppend cn
          ⟨(strings_Split e '/').getD 0 [], (strings_Split e '/').getD 1 []⟩)).1
        simp only [ne_eq] at this
        rw [this]
        simp [hc]
      · exact (ih _).2
    · have h2 : (strings_Split e '/').length ≠ 2 := by omega
      simp only [parseCollectionsLoop, h2, ne_eq, not_false_eq_true, if_true]
      simp [hc]

theorem labixBulk.InsertAll_eq (b : labixBulk) (docs : List Document) :
    b.InsertAll docs
      = ({ b with writeModels := b.writeModels ++ docs.map WriteModel.InsertOne }, []) := by
  induction docs generalizing b with
  | nil => simp [labixBulk.InsertAll]
  | cons d ds ih => simp [labixBulk.InsertAll, labixBulk.Insert, ih]

/-! ## The claims -/

/-- C1: for every non-empty list of (database, collection) pairs whose components
contain neither `/` nor `,`, `parseCollections` applied to the pairs rendered as
`database/collection` and joined with `,` returns that list, in the same order, and a
nil error. -/
theorem parseCollections_roundtrip (pairs : List dbColl) (hne : pairs ≠ [])
    (h : ∀ p ∈ pairs, '/' ∉ p.database ∧ ',' ∉ p.database
      ∧ '/' ∉ p.collection ∧ ',' ∉ p.collection) :
    parseCollections (strings_Join (pairs.map renderPair) [',']) = (some pairs, none)
      ∧ ∃ cn, (parseCollections (strings_Join (pairs.map renderPair) [','])).1 = some cn
          ∧ cn.length = pairs.length := by
  have hsplit : strings_Split (strings_Join (pairs.map renderPair) [',']) ','
      = pairs.map renderPair := by
    apply strings_Split_Join _ _ (by simpa using hne)
    intro e he
    obtain ⟨p, hp, rfl⟩ := List.mem_map.mp he
    have := h p hp
    simp only [renderPair, List.mem_append, List.mem_cons, not_or]
    exact ⟨this.2.1, by decide, this.2.2.2⟩
  have hmain : parseCollections (strings_Join (pairs.map renderPair) [','])
      = (some pairs, none) := by
    rw [parseCollections, hsplit,
      parseCollectionsLoop_render _ pairs (fun p hp => ⟨(h p hp).1, (h p hp).2.2.1⟩)]
    cases pairs with
    | nil => exact absurd rfl hne
    | cons p rest =>
      rw [List.foldl_cons]
      simp [sliceAppend, foldl_sliceAppend_some]
  exact ⟨hmain, pairs, by rw [hmain], rfl⟩

/-- Witness for C1: the spec's example `foo/content,foo/bar`. -/
theorem parseCollections_roundtrip_witness :
    parseCollections "foo/content,foo/bar".toList
        = (some [⟨"foo".toList, "content".toList⟩, ⟨"foo".toList, "bar".toList⟩], none)
      ∧ ∃ cn, (parseCollections "foo/content,foo/bar".toList).1 = some cn
          ∧ cn.length = 2 :=
  parseCollections_roundtrip
    [⟨"foo".toList, "content".toList⟩, ⟨"foo".toList, "bar".toList⟩] (by decide) (by decide)

/-- C2: `parseCollections` returns an error exactly when one of the comma-separated
entries of its input does not contain exactly one `/`; the entries are the pieces
without comma whose join is the input; with an error the returned list is nil; and
`badstring`, `a/b/c` and the empty string are rejected. -/
theorem parseCollections_error_iff (colls : GoString) :
    ((parseCollections colls).2 ≠ none
        ↔ ∃ e ∈ strings_Split colls ',', strings_Count e '/' ≠ 1)
      ∧ ((parseCollections colls).2 ≠ none → (parseCollections colls).1 = none)
      ∧ (strings_Join (strings_Split colls ',') [','] = colls
          ∧ ∀ e ∈ strings_Split colls ',', ',' ∉ e)
      ∧ (parseCollections "badstring".toList).2 ≠ none
      ∧ (parseCollections "a/b/c".toList).2 ≠ none
      ∧ (parseCollections []).2 ≠ none :=
  ⟨(parseCollectionsLoop_error_iff colls _ none).1,
    (parseCollectionsLoop_error_iff colls _ none).2,
    ⟨strings_Join_Split colls ',', strings_Split_no_sep colls ','⟩,
    by decide, by decide, by decide⟩

/-- Counterexample to C3 as stated: with the default base directory `/backups/` the
key of the S3 writer is `/backups/2006-01-02T15-04-05/foo/content.bson.snappy`, not
the literal layout `/backups//2006-01-02T15-04-05/foo/content.bson.snappy`. -/
theorem storage_key_not_literal_layout :
    (newS3StorageService "bucket".toList "/backups/".toList [] [] []).writerPath
        "2006-01-02T15-04-05".toList "foo".toList "content".toList
      = "/backups/2006-01-02T15-04-05/foo/content.bson.snappy".toList
    ∧ (newS3StorageService "bucket".toList "/backups/".toList [] [] []).writerPath
        "2006-01-02T15-04-05".toList "foo".toList "content".toList
      ≠ layoutKey "/backups/".toList "2006-01-02T15-04-05".toList "foo".toList
          "content".toList := by
  decide

/-- C3, amended: for every base directory, date, database and collection, with no
condition on them, the key each of the four stream openers hands to its backend call
(`PutWriter`, `GetReader`, `os.Create`, `os.Open`) is
`filepath.Join(baseDir, date, database, collection + ".bson.snappy")`, a function of
these four strings alone; that key is the literal layout
`{baseDir}/{date}/{database}/{collection}.bson.snappy` whenever `baseDir` is a clean
path other than `.` and `/`, `date` and `database` are non-empty, without `/` and
neither `.` nor `..`, and `collection` is without `/`. -/
theorem storage_key_layout (s3bucket s3domain accessKey secretKey : GoString)
    (baseDir date database collection : GoString)
    (putErr getErr createErr openErr : Option GoError) :
    ((newS3StorageService s3bucket baseDir s3domain accessKey secretKey).Writer
        date database collection putErr).1
      = [StorageCall.logInfo (s3SavingMsg
            (filepath_Join [baseDir, date, database, collection ++ extension]) s3bucket),
          StorageCall.PutWriter s3bucket
            (filepath_Join [baseDir, date, database, collection ++ extension])
            [("x-amz-server-side-encryption".toList, ["AES256".toList])]]
    ∧ ((newS3StorageService s3bucket baseDir s3domain accessKey secretKey).Reader
        date database collection getErr).1
      = [StorageCall.GetReader s3bucket
          (filepath_Join [baseDir, date, database, collection ++ extension])]
    ∧ ((newFSStorageService baseDir).Writer date database collection none createErr).1
      = [StorageCall.MkdirAll (filepath_Join [baseDir, date, database]),
          StorageCall.logInfo (fsSavingMsg
            (filepath_Join [baseDir, date, database, collection ++ extension])),
          StorageCall.Create
            (filepath_Join [baseDir, date, database, collection ++ extension])]
    ∧ ((newFSStorageService baseDir).Reader date database collection openErr).1
      = [StorageCall.Open
          (filepath_Join [baseDir, date, database, collection ++ extension])]
    ∧ (((newS3StorageService s3bucket baseDir s3domain accessKey secretKey).Writer
          date database collection none).2.1
        = some (filepath_Join [baseDir, date, database, collection ++ extension])
      ∧ ((newS3StorageService s3bucket baseDir s3domain accessKey secretKey).Reader
          date database collection none).2.1
        = some (filepath_Join [baseDir, date, database, collection ++ extension])
      ∧ ((newFSStorageService baseDir).Writer date database collection none none).2.1
        = some (filepath_Join [baseDir, date, database, collection ++ extension])
      ∧ ((newFSStorageService baseDir).Reader date database collection none).2.1
        = some (filepath_Join [baseDir, date, database, collection ++ extension]))
    ∧ (filepath_Clean baseDir = baseDir → baseDir ≠ ['.'] → baseDir ≠ ['/'] →
        realElem date → realElem database → '/' ∉ collection →
        filepath_Join [baseDir, date, database, collection ++ extension]
          = layoutKey baseDir date database collection) := by
  have hfs : (newFSStorageService baseDir).writerPath date database collection
      = filepath_Join [baseDir, date, database, collection ++ extension] :=
    filepath_Join_Join [baseDir, date, database] (collection ++ extension)
  refine ⟨?_, ?_, ?_, ?_, ⟨rfl, rfl, ?_, rfl⟩, ?_⟩
  · cases putErr <;> rfl
  · cases getErr <;> rfl
  · cases createErr <;> simp [fsStorageService.Writer, hfs] <;> rfl
  · cases openErr <;> rfl
  · simp [fsStorageService.Writer, hfs]
  · exact filepath_Join_layout baseDir date database collection

/-- Witness for the amended C3: at the base directory `/backups` the conditions hold
and the key is the literal layout; at the default base directory `/backups/` with the
date `..` and an empty database the reader still opens the joined path. -/
theorem storage_key_layout_witness :
    (filepath_Clean "/backups".toList = "/backups".toList ∧ "/backups".toList ≠ ['.']
      ∧ "/backups".toList ≠ ['/'] ∧ realElem "2006-01-02T15-04-05".toList
      ∧ realElem "foo".toList ∧ '/' ∉ "content".toList)
    ∧ filepath_Join ["/backups".toList, "2006-01-02T15-04-05".toList, "foo".toList,
          "content".toList ++ extension]
      = layoutKey "/backups".toList "2006-01-02T15-04-05".toList "foo".toList
          "content".toList
    ∧ ((newFSStorageService "/backups/".toList).Reader "..".toList [] "content".toList
          none).1
      = [StorageCall.Open "/content.bson.snappy".toList] :=
  ⟨by decide,
    (storage_key_layout [] [] [] [] "/backups".toList "2006-01-02T15-04-05".toList
      "foo".toList "content".toList none none none none).2.2.2.2.2
      (by decide) (by decide) (by decide) (by decide) (by decide) (by decide),
    (storage_key_layout [] [] [] [] "/backups/".toList "..".toList []
      "content".toList none none none none).2.2.2.1⟩

/-- C4, at the failing input: when closing the snappy writer fails with `err`,
`snappyWriteCloser.Close` returns `err` after that single call; `Close` of the backend
writer is not among the calls made.  Only when the snappy writer closes without error
are both closed, the compressor first. -/
theorem snappyWriteCloser_Close_skips_backend (err : GoError) (backendErr : Option GoError) :
    (snappyWriteCloser.Close ⟨some err, backendErr⟩) = ([CloseCall.snappyWriter], some err)
      ∧ CloseCall.writeCloser ∉ (snappyWriteCloser.Close ⟨some err, backendErr⟩).1
      ∧ (snappyWriteCloser.Close ⟨none, backendErr⟩)
          = ([CloseCall.snappyWriter, CloseCall.writeCloser], backendErr) := by
  refine ⟨rfl, ?_, rfl⟩
  simp [snappyWriteCloser.Close]

/-- C5: the writer returned by `Bulk(database, collection)` has an empty buffer; after
`Insert(d1)..Insert(dk)` the buffer holds the insert operations for `d1..dk` in that
order and no call has been made on the driver; `Run` makes exactly one call,
`BulkWrite` of these operations on `(database, collection)`, returns its error, and
leaves the writer, hence the buffer, as it was. -/
theorem labixBulk_buffer (s : labixSession) (database collection : GoString)
    (docs : List Document) (bulkErr : Option GoError) :
    (s.Bulk database collection).writeModels = []
      ∧ ((s.Bulk database collection).InsertAll docs).1.writeModels
          = docs.map WriteModel.InsertOne
      ∧ (((s.Bulk database collection).InsertAll docs).1.writeModels).length = docs.length
      ∧ ((s.Bulk database collection).InsertAll docs).2 = []
      ∧ ((((s.Bulk database collection).InsertAll docs).1).Run bulkErr).2.1
          = [MongoCall.BulkWrite s.ctx database collection (docs.map WriteModel.InsertOne)]
      ∧ ((((s.Bulk database collection).InsertAll docs).1).Run bulkErr).2.2 = bulkErr
      ∧ ((((s.Bulk database collection).InsertAll docs).1).Run bulkErr).1.writeModels
          = docs.map WriteModel.InsertOne := by
  simp [labixBulk.InsertAll_eq, labixSession.Bulk, labixBulk.Run]

/-- C6, at the failing input: when `Find` succeeds, `SnapshotIter` calls `Find` and
then, through its `defer`, `cursor.Close`; the cursor of the iterator it returns is
closed at the moment it returns. -/
theorem SnapshotIter_returns_closed_cursor (s : labixSession)
    (database collection : GoString) (docs : List Document) :
    s.SnapshotIter database collection (.ok docs)
        = ([MongoCall.Find s.ctx database collection (some []), MongoCall.CursorClose s.ctx],
            some ⟨⟨true, docs, []⟩, s.ctx⟩, none)
      ∧ ∃ it, (s.SnapshotIter database collection (.ok docs)).2.1 = some it
          ∧ it.cursor.closed = true :=
  ⟨rfl, ⟨⟨true, docs, []⟩, s.ctx⟩, rfl, rfl⟩

/-- C7, at the failing input: `RemoveAll` makes one `DeleteMany` call on
`(database, collection)` whose filter is nil, whatever `removeQuery` is, and returns
the error of that call. -/
theorem RemoveAll_passes_nil_filter (s : labixSession) (database collection : GoString)
    (removeQuery : Filter) (deleteErr : Option GoError) :
    s.RemoveAll database collection removeQuery deleteErr
      = ([MongoCall.DeleteMany s.ctx database collection none], deleteErr) :=
  rfl

/-- C8, at the failing input: the session returned by `DialWithTimeout(url, timeout)`
at the instant `now` keeps the context of the dial, whose deadline is `now + timeout`,
and that context is the one given to every `Find`, `DeleteMany`, `BulkWrite` and
`TryNext` made through the session. -/
theorem session_calls_carry_dial_deadline (now timeout : Int) (url : GoString) :
    ∃ s, (labixMongo.DialWithTimeout now url timeout none).2.1 = some s
      ∧ s.ctx.deadline = some (now + timeout)
      ∧ (∀ database collection found, ∀ c ∈ (s.SnapshotIter database collection found).1,
          c.ctx? = some ⟨some (now + timeout)⟩)
      ∧ (∀ database collection removeQuery deleteErr,
          ∀ c ∈ (s.RemoveAll database collection removeQuery deleteErr).1,
            c.ctx? = some ⟨some (now + timeout)⟩)
      ∧ (∀ database collection docs bulkErr,
          ∀ c ∈ ((((s.Bulk database collection).InsertAll docs).1).Run bulkErr).2.1,
            c.ctx? = some ⟨some (now + timeout)⟩)
      ∧ (∀ database collection docs it tryNext,
          (s.SnapshotIter database collection (.ok docs)).2.1 = some it →
            ∀ c ∈ (it.Next tryNext).2.1, c.ctx? = some ⟨some (now + timeout)⟩) := by
  refine ⟨⟨url, ⟨some (now + timeout)⟩⟩, rfl, rfl, ?_, ?_, ?_, ?_⟩
  · intro database collection found c hc
    cases found with
    | error err =>
      simp only [labixSession.SnapshotIter, List.mem_singleton] at hc
      rw [hc]
      rfl
    | ok docs =>
      simp only [labixSession.SnapshotIter, mongo_Cursor.Close, List.mem_cons,
        List.mem_singleton, List.not_mem_nil, or_false] at hc
      rcases hc with rfl | rfl <;> rfl
  · intro database collection removeQuery deleteErr c hc
    simp only [labixSession.RemoveAll, List.mem_singleton] at hc
    rw [hc]
    rfl
  · intro database collection docs bulkErr c hc
    simp only [labixBulk.InsertAll_eq, labixSession.Bulk, labixBulk.Run,
      List.mem_singleton] at hc
    rw [hc]
    rfl
  · intro database collection docs it tryNext hit c hc
    simp only [labixSession.SnapshotIter, Option.some.injEq] at hit
    subst hit
    simp only [labixIter.Next, List.mem_singleton] at hc
    rw [hc]
    rfl

/-- C9, at the failing input: two runs whose arguments differ only in the value given
to `--aws-secret-access-key`, and in which `app.Run` logs the same messages and
returns, log different messages: `log.Info(os.Args)` prints the secret.  The calls of
the S3 writer, its log message included, are the same for every secret key. -/
theorem main_logs_secret_flag (logged : List GoString) (err : Option GoError) :
    (∀ (s3bucket s3dir s3domain accessKey secret1 secret2 date database collection : GoString)
        (putErr : Option GoError),
      ((newS3StorageService s3bucket s3dir s3domain accessKey secret1).Writer
          date database collection putErr).1
        = ((newS3StorageService s3bucket s3dir s3domain accessKey secret2).Writer
          date database collection putErr).1)
    ∧ main_logged ["mongo-hot-backup".toList, "--aws-secret-access-key".toList,
        "SECRET1".toList, "backup".toList] ⟨logged, false, err⟩
      ≠ main_logged ["mongo-hot-backup".toList, "--aws-secret-access-key".toList,
        "SECRET2".toList, "backup".toList] ⟨logged, false, err⟩
    ∧ fmt_Sprint ["mongo-hot-backup".toList, "--aws-secret-access-key".toList,
        "SECRET1".toList, "backup".toList]
      ∈ main_logged ["mongo-hot-backup".toList, "--aws-secret-access-key".toList,
        "SECRET1".toList, "backup".toList] ⟨logged, false, err⟩
    ∧ fmt_Sprint ["mongo-hot-backup".toList, "--aws-secret-access-key".toList,
        "SECRET1".toList, "backup".toList]
      = "[mongo-hot-backup --aws-secret-access-key SECRET1 backup]".toList := by
  refine ⟨?_, ?_, ?_, by decide⟩
  · intro s3bucket s3dir s3domain accessKey secret1 secret2 date database collection putErr
    cases putErr <;> rfl
  · simp only [main_logged, Bool.false_eq_true, if_false, List.append_assoc, ne_eq,
      List.append_cancel_left_eq, List.cons_append, List.nil_append, List.cons.injEq, not_and]
    intro h
    exact absurd h (by decide)
  · simp [main_logged]

/-- C10: for every `fsdir`, `date`, `database` and `collection`, the path the
filesystem writer creates, `filepath.Join(filepath.Join(fsdir, date, database),
collection + ".bson.snappy")`, is the path the filesystem reader opens,
`filepath.Join(fsdir, date, database, collection + ".bson.snappy")`. -/
theorem fs_Writer_Reader_same_path (fsdir date database collection : GoString)
    (createErr openErr : Option GoError) :
    filepath_Join [filepath_Join [fsdir, date, database], collection ++ extension]
        = filepath_Join [fsdir, date, database, collection ++ extension]
      ∧ (newFSStorageService fsdir).writerPath date database collection
        = (newFSStorageService fsdir).readerPath date database collection
      ∧ ((newFSStorageService fsdir).Writer date database collection none createErr).1
        = [StorageCall.MkdirAll (filepath_Join [fsdir, date, database]),
            StorageCall.logInfo (fsSavingMsg
              ((newFSStorageService fsdir).readerPath date database collection)),
            StorageCall.Create
              ((newFSStorageService fsdir).readerPath date database collection)]
      ∧ ((newFSStorageService fsdir).Reader date database collection openErr).1
        = [StorageCall.Open
            ((newFSStorageService fsdir).readerPath date database collection)] := by
  have h := filepath_Join_Join [fsdir, date, database] (collection ++ extension)
  have hp : (newFSStorageService fsdir).writerPath date database collection
      = (newFSStorageService fsdir).readerPath date database collection := h
  refine ⟨h, hp, ?_, ?_⟩
  · cases createErr <;> simp [fsStorageService.Writer, hp] <;> rfl
  · cases openErr <;> rfl

end MongoHotBackup
